import Mathlib

/-!
Shallow embedding of `src/socionics_research/analysis/kl_divergence.py`.

Modelling conventions:
* Python floats are modelled by `ℚ` for the discrete pipeline (building the
  token→mass dictionary, normalisation, alignment) and by `ℝ` for the final
  logarithmic reduction, since `Real.log` plays the role of `np.log` inside
  `scipy.stats.entropy`.
* `np.exp` is modelled by an arbitrary parameter `expf : ℚ → ℚ`: the real
  exponential is everywhere positive, but the floating-point `np.exp`
  underflows to `0` for very negative inputs, and the uniform-fallback branch
  of `normalize_distribution` is only reachable through such degenerate
  behaviour.  Theorems that need the mathematical behaviour assume
  `∀ x, 0 < expf x`.
* A Python `dict` is an insertion-ordered association list with unique keys;
  `insertD` reproduces `d[k] = v` (update in place, append when new) and
  `lookupD` reproduces `d.get(k)`.
* Python functions that contain `raise` statements are modelled with
  `Except KLError`; functions without `raise` (and with no reachable runtime
  arithmetic fault) are total.
-/

/-- One element of the Python `topk_probs` list: a dict that always carries a
`"token"` entry and optionally `"logprob"` and/or `"log_prob"` entries. -/
structure Item where
  token : String
  logprob : Option ℚ
  log_prob : Option ℚ
deriving DecidableEq, Repr

/-- `item.get("logprob", item.get("log_prob", 0))` from
`normalize_distribution`. -/
def getLogprob (item : Item) : ℚ :=
  item.logprob.getD (item.log_prob.getD 0)

/-- Python dict assignment `d[k] = v`: overwrite the value in place if the key
exists, append the binding otherwise. -/
def insertD (k : String) (v : ℚ) : List (String × ℚ) → List (String × ℚ)
  | [] => [(k, v)]
  | (k', v') :: rest =>
      if k' = k then (k, v) :: rest else (k', v') :: insertD k v rest

/-- Python dict lookup `d.get(k)` (first binding wins; keys built via
`insertD` are unique so this is the binding). -/
def lookupD (k : String) : List (String × ℚ) → Option ℚ
  | [] => none
  | (k', v') :: rest => if k' = k then some v' else lookupD k rest

/-- The first loop of `normalize_distribution`:
`probs = {}` then `probs[token] = np.exp(logprob)` for each item, with
last-occurrence-wins overwrite semantics for duplicate tokens. -/
def buildProbs (expf : ℚ → ℚ) (topk : List Item) : List (String × ℚ) :=
  topk.foldl (fun d it => insertD it.token (expf (getLogprob it)) d) []

/-- `sum(probs.values())`. -/
def sumValues (d : List (String × ℚ)) : ℚ :=
  (d.map Prod.snd).sum

/-- `normalize_distribution(topk_probs, epsilon)` — the `epsilon` parameter is
accepted by the Python function but never used in its body, so it is omitted.
If the total mass is strictly positive every mass is divided by it; otherwise
each key receives `1.0 / len(probs)`.  The fallback value is evaluated once
per key of the comprehension, so an empty `probs` yields an empty dict without
ever evaluating the division — mirrored here by mapping over `probs`. -/
def normalize_distribution (expf : ℚ → ℚ) (topk : List Item) :
    List (String × ℚ) :=
  let probs := buildProbs expf topk
  let total := sumValues probs
  if 0 < total then
    probs.map (fun kv => (kv.1, kv.2 / total))
  else
    probs.map (fun kv => (kv.1, 1 / (probs.length : ℚ)))

/-- `sorted(set(p_dist.keys()) | set(q_dist.keys()))`: the lexicographically
sorted union of the token identifiers of the two mappings. -/
def sortedUnion (p q : List (String × ℚ)) : List String :=
  List.insertionSort (· ≤ ·) ((p.map Prod.fst ++ q.map Prod.fst).dedup)

/-- `align_distributions(p_dist, q_dist, epsilon)`: look each union token up
in each mapping, substituting `epsilon` when absent, then renormalise each
vector by its own sum.  `numpy` performs the division element-wise, so an
empty vector is returned unchanged without evaluating any division —
mirrored here by mapping the division over the list. -/
def align_distributions (p q : List (String × ℚ)) (ε : ℚ) :
    List ℚ × List ℚ :=
  let all_tokens := sortedUnion p q
  let p_array := all_tokens.map (fun t => (lookupD t p).getD ε)
  let q_array := all_tokens.map (fun t => (lookupD t q).getD ε)
  (p_array.map (fun v => v / p_array.sum),
   q_array.map (fun v => v / q_array.sum))

/-- The relative-entropy sum `Σ pᵢ · ln(pᵢ / qᵢ)` over two parallel vectors
(`scipy.special.rel_entr` summed; on the strictly positive inputs produced by
the aligner `rel_entr(p, q) = p * log(p / q)`, the 0/∞ branches being
unreachable). -/
noncomputable def relEntrSum (ps qs : List ℝ) : ℝ :=
  ((ps.zip qs).map (fun pq => pq.1 * Real.log (pq.1 / pq.2))).sum

/-- `scipy.stats.entropy(pk, qk)`: both vectors are first normalised by their
own sums, then the relative-entropy sum is taken. -/
noncomputable def scipyEntropy (ps qs : List ℝ) : ℝ :=
  relEntrSum (ps.map (fun v => v / ps.sum)) (qs.map (fun v => v / qs.sum))

/-- The embedding boundary between the exact rational pipeline and the real
logarithmic reduction: view a vector of rationals as a vector of reals. -/
def castList (l : List ℚ) : List ℝ :=
  l.map (Rat.cast : ℚ → ℝ)

/-- `compute_kl_divergence(p_topk, q_topk, epsilon)`: normalise both top-k
lists, align them, and hand the aligned vectors to `scipy.stats.entropy`. -/
noncomputable def compute_kl_divergence (expf : ℚ → ℚ) (ε : ℚ)
    (p_topk q_topk : List Item) : ℝ :=
  let p_dist := normalize_distribution expf p_topk
  let q_dist := normalize_distribution expf q_topk
  let pq := align_distributions p_dist q_dist ε
  scipyEntropy (castList pq.1) (castList pq.2)

/-- The errors the sequence-level entry point can raise (all `ValueError` in
Python; the spec taxonomy calls them LengthMismatch, InvalidArgument, and the
`np.max`-on-empty reduction fault respectively). -/
inductive KLError where
  | lengthMismatch (lenA lenB : Nat)
  | unknownAggregate (mode : String)
  | emptyReduction
deriving DecidableEq, Repr

/-- The human-readable message attached to each error, following the Python
format strings. -/
def KLError.message : KLError → String
  | .lengthMismatch a b =>
      "Token sequence lengths do not match: " ++ toString a ++ " vs "
        ++ toString b
  | .unknownAggregate mode => "Unknown aggregate method: " ++ mode
  | .emptyReduction => "zero-size array to reduction operation maximum"

/-- The aggregation step of `compute_sequence_kl`: `np.mean` is the sum
divided by the length, `np.sum` the sum, `np.max` the running maximum
(raising on an empty array, as `np.max` does); any other mode string raises.
(`np.mean` of an empty array is NaN in numpy; `ℝ` has no NaN and Lean's
`0 / 0 = 0` stands in — every theorem below that touches the mean excludes
the empty case.) -/
noncomputable def aggregateKL (mode : String) (kls : List ℝ) :
    Except KLError ℝ :=
  if mode = "mean" then .ok (kls.sum / (kls.length : ℝ))
  else if mode = "sum" then .ok kls.sum
  else if mode = "max" then
    match kls with
    | [] => .error .emptyReduction
    | x :: xs => .ok (xs.foldl max x)
  else .error (.unknownAggregate mode)

/-- `compute_sequence_kl(run_a_tokens, run_b_tokens, aggregate)`: reject
unequal lengths, compute one KL value per zipped position (`run_a[i]` as P,
`run_b[i]` as Q, in order), then aggregate. -/
noncomputable def compute_sequence_kl (expf : ℚ → ℚ) (ε : ℚ)
    (run_a_tokens run_b_tokens : List (List Item)) (aggregate : String) :
    Except KLError ℝ :=
  if run_a_tokens.length ≠ run_b_tokens.length then
    .error (.lengthMismatch run_a_tokens.length run_b_tokens.length)
  else
    aggregateKL aggregate
      ((run_a_tokens.zip run_b_tokens).map
        (fun pq => compute_kl_divergence expf ε pq.1 pq.2))

/-- `compute_entropy_from_topk(topk_probs)`: normalise, then Shannon entropy
of the values (`scipy.stats.entropy` with a single argument normalises by the
sum and returns `-Σ pᵢ ln pᵢ`). -/
noncomputable def compute_entropy_from_topk (expf : ℚ → ℚ)
    (topk : List Item) : ℝ :=
  let dist := normalize_distribution expf topk
  let probs := castList (dist.map Prod.snd)
  let normed := probs.map (fun v => v / probs.sum)
  0 - (normed.map (fun p => p * Real.log p)).sum

/-- `normalize_distribution` wrapped in `Except`, making its (absent) error
behaviour explicit: the Python body contains no `raise` statement and no
reachable runtime arithmetic fault, so the faithful error-aware version
always succeeds. -/
def normalizeE (expf : ℚ → ℚ) (topk : List Item) :
    Except KLError (List (String × ℚ)) :=
  .ok (normalize_distribution expf topk)

/-- `align_distributions` wrapped in `Except`, making its (absent) error
behaviour explicit: the Python body contains no `raise` statement and, on
empty inputs, `numpy` divides an empty array element-wise so no fault and no
NaN is produced. -/
def alignE (p q : List (String × ℚ)) (ε : ℚ) :
    Except KLError (List ℚ × List ℚ) :=
  .ok (align_distributions p q ε)

/-! ### Dictionary semantics -/

lemma lookupD_insertD (t k : String) (v : ℚ) (d : List (String × ℚ)) :
    lookupD t (insertD k v d) = if k = t then some v else lookupD t d := by
  induction d with
  | nil => simp [insertD, lookupD]
  | cons kv rest ih =>
      obtain ⟨k', v'⟩ := kv
      by_cases hk : k' = k
      · subst hk
        by_cases ht : k' = t <;> simp [insertD, lookupD, ht]
      · by_cases ht : k' = t
        · subst ht
          have hk2 : k ≠ k' := fun h => hk h.symm
          simp [insertD, hk, lookupD, hk2]
        · simp [insertD, hk, lookupD, ht, ih]

lemma mem_insertD {kv : String × ℚ} {k : String} {v : ℚ}
    {d : List (String × ℚ)} (h : kv ∈ insertD k v d) :
    kv = (k, v) ∨ kv ∈ d := by
  induction d with
  | nil => simpa [insertD] using h
  | cons kv' rest ih =>
      obtain ⟨k', v'⟩ := kv'
      by_cases hk : k' = k
      · subst hk
        rcases (by simpa [insertD] using h : kv = (k', v) ∨ kv ∈ rest) with
          h1 | h2
        · exact Or.inl h1
        · exact Or.inr (List.mem_cons_of_mem _ h2)
      · rcases (by simpa [insertD, hk] using h :
            kv = (k', v') ∨ kv ∈ insertD k v rest) with h1 | h2
        · exact Or.inr (by simp [h1])
        · rcases ih h2 with h3 | h4
          · exact Or.inl h3
          · exact Or.inr (List.mem_cons_of_mem _ h4)

lemma keys_insertD (t k : String) (v : ℚ) (d : List (String × ℚ)) :
    t ∈ (insertD k v d).map Prod.fst ↔ t = k ∨ t ∈ d.map Prod.fst := by
  induction d with
  | nil => simp [insertD, eq_comm]
  | cons kv rest ih =>
      obtain ⟨k', v'⟩ := kv
      by_cases hk : k' = k
      · subst hk
        simp [insertD, eq_comm]
      · simp only [insertD, if_neg hk, List.map_cons, List.mem_cons, ih]
        tauto

lemma insertD_ne_nil (k : String) (v : ℚ) (d : List (String × ℚ)) :
    insertD k v d ≠ [] := by
  cases d with
  | nil => simp [insertD]
  | cons kv rest =>
      obtain ⟨k', v'⟩ := kv
      by_cases hk : k' = k <;> simp [insertD, hk]

lemma lookupD_mem {t : String} {v : ℚ} {d : List (String × ℚ)}
    (h : lookupD t d = some v) : (t, v) ∈ d := by
  induction d with
  | nil => simp [lookupD] at h
  | cons kv rest ih =>
      obtain ⟨k', v'⟩ := kv
      by_cases hk : k' = t
      · subst hk
        have hv : v' = v := by simpa [lookupD] using h
        subst hv
        exact List.mem_cons_self _ _
      · simp only [lookupD, if_neg hk] at h
        exact List.mem_cons_of_mem _ (ih h)

lemma lookupD_map_values (t : String) (f : ℚ → ℚ) (d : List (String × ℚ)) :
    lookupD t (d.map (fun kv => (kv.1, f kv.2))) = (lookupD t d).map f := by
  induction d with
  | nil => simp [lookupD]
  | cons kv rest ih =>
      obtain ⟨k', v'⟩ := kv
      by_cases hk : k' = t <;> simp [lookupD, hk, ih]

lemma lookupD_map_div (t : String) (c : ℚ) (d : List (String × ℚ)) :
    lookupD t (d.map (fun kv => (kv.1, kv.2 / c)))
      = (lookupD t d).map (fun v => v / c) :=
  lookupD_map_values t (fun v => v / c) d

/-! ### `buildProbs` facts -/

lemma buildProbs_concat (e : ℚ → ℚ) (l : List Item) (x : Item) :
    buildProbs e (l ++ [x])
      = insertD x.token (e (getLogprob x)) (buildProbs e l) := by
  simp [buildProbs, List.foldl_append]

lemma foldl_insertD_ne_nil (e : ℚ → ℚ) (l : List Item)
    (d : List (String × ℚ)) (hd : d ≠ []) :
    l.foldl (fun d it => insertD it.token (e (getLogprob it)) d) d ≠ [] := by
  induction l generalizing d with
  | nil => simpa using hd
  | cons x rest ih =>
      simp only [List.foldl_cons]
      exact ih _ (insertD_ne_nil _ _ _)

lemma buildProbs_ne_nil (e : ℚ → ℚ) {l : List Item} (hl : l ≠ []) :
    buildProbs e l ≠ [] := by
  cases l with
  | nil => exact absurd rfl hl
  | cons x rest =>
      simp only [buildProbs, List.foldl_cons]
      exact foldl_insertD_ne_nil e rest _ (insertD_ne_nil _ _ _)

lemma lookupD_buildProbs (e : ℚ → ℚ) (t : String) (l : List Item) :
    lookupD t (buildProbs e l)
      = ((l.filter (fun it => it.token = t)).getLast?).map
          (fun it => e (getLogprob it)) := by
  induction l using List.reverseRecOn with
  | nil => simp [buildProbs, lookupD]
  | append_singleton l x ih =>
      rw [buildProbs_concat, lookupD_insertD]
      by_cases hx : x.token = t
      · rw [if_pos hx]
        have : (l ++ [x]).filter (fun it => it.token = t)
            = l.filter (fun it => it.token = t) ++ [x] := by
          simp [List.filter_append, hx]
        simp [this]
      · rw [if_neg hx]
        have : (l ++ [x]).filter (fun it => it.token = t)
            = l.filter (fun it => it.token = t) := by
          simp [List.filter_append, hx]
        simp [this, ih]

lemma mem_keys_buildProbs (e : ℚ → ℚ) (t : String) (l : List Item) :
    t ∈ (buildProbs e l).map Prod.fst ↔ t ∈ l.map Item.token := by
  induction l using List.reverseRecOn with
  | nil => simp [buildProbs]
  | append_singleton l x ih =>
      rw [buildProbs_concat, keys_insertD]
      simp [ih, eq_comm, or_comm]

lemma values_buildProbs_pos {e : ℚ → ℚ} (he : ∀ x, 0 < e x) (l : List Item) :
    ∀ kv ∈ buildProbs e l, 0 < kv.2 := by
  induction l using List.reverseRecOn with
  | nil => simp [buildProbs]
  | append_singleton l x ih =>
      intro kv hkv
      rw [buildProbs_concat] at hkv
      rcases mem_insertD hkv with h1 | h2
      · subst h1
        exact he _
      · exact ih kv h2

/-! ### Renormalisation facts -/

lemma list_sum_div (l : List ℚ) (c : ℚ) :
    (l.map (fun v => v / c)).sum = l.sum / c := by
  induction l with
  | nil => simp
  | cons x rest ih => simp [ih, add_div]

lemma sumValues_map_div (d : List (String × ℚ)) (c : ℚ) :
    sumValues (d.map (fun kv => (kv.1, kv.2 / c))) = sumValues d / c := by
  simp only [sumValues, List.map_map]
  have : (Prod.snd ∘ fun kv : String × ℚ => (kv.1, kv.2 / c))
      = fun kv : String × ℚ => kv.2 / c := rfl
  rw [this]
  have := list_sum_div (d.map Prod.snd) c
  simpa [List.map_map] using this

lemma renorm_sum_one {l : List ℚ} (hl : l ≠ []) (hpos : ∀ x ∈ l, 0 < x) :
    (l.map (fun v => v / l.sum)).sum = 1 := by
  have hs : 0 < l.sum := List.sum_pos l hpos hl
  rw [list_sum_div]
  exact div_self (ne_of_gt hs)

lemma renorm_pos {l : List ℚ} (hl : l ≠ []) (hpos : ∀ x ∈ l, 0 < x) :
    ∀ y ∈ l.map (fun v => v / l.sum), 0 < y := by
  have hs : 0 < l.sum := List.sum_pos l hpos hl
  intro y hy
  obtain ⟨x, hx, rfl⟩ := List.mem_map.mp hy
  exact div_pos (hpos x hx) hs

/-! ### `sortedUnion` facts -/

lemma mem_sortedUnion (t : String) (p q : List (String × ℚ)) :
    t ∈ sortedUnion p q ↔ t ∈ p.map Prod.fst ∨ t ∈ q.map Prod.fst := by
  simp [sortedUnion, List.mem_insertionSort, List.mem_dedup]

lemma sortedUnion_sorted (p q : List (String × ℚ)) :
    List.Sorted (· ≤ ·) (sortedUnion p q) :=
  List.sorted_insertionSort _ _

lemma sortedUnion_nodup (p q : List (String × ℚ)) :
    (sortedUnion p q).Nodup :=
  ((List.nodup_dedup _).perm (List.perm_insertionSort _ _).symm)

lemma sortedUnion_ne_nil_left {p : List (String × ℚ)} (q : List (String × ℚ))
    (hp : p ≠ []) : sortedUnion p q ≠ [] := by
  obtain ⟨kv, rest, rfl⟩ := List.exists_cons_of_ne_nil hp
  have : kv.1 ∈ sortedUnion (kv :: rest) q := by
    rw [mem_sortedUnion]
    exact Or.inl (by simp)
  exact List.ne_nil_of_mem this

lemma sortedUnion_ne_nil_right (p : List (String × ℚ))
    {q : List (String × ℚ)} (hq : q ≠ []) : sortedUnion p q ≠ [] := by
  obtain ⟨kv, rest, rfl⟩ := List.exists_cons_of_ne_nil hq
  have : kv.1 ∈ sortedUnion p (kv :: rest) := by
    rw [mem_sortedUnion]
    exact Or.inr (by simp)
  exact List.ne_nil_of_mem this

/-! ### Pre-renormalisation alignment vectors -/

lemma preAlign_pos {d : List (String × ℚ)} {ε : ℚ} (hε : 0 < ε)
    (hd : ∀ kv ∈ d, 0 < kv.2) (ts : List String) :
    ∀ x ∈ ts.map (fun t => (lookupD t d).getD ε), 0 < x := by
  intro x hx
  obtain ⟨t, _, rfl⟩ := List.mem_map.mp hx
  cases hl : lookupD t d with
  | none => simpa [hl] using hε
  | some v =>
      have := hd (t, v) (lookupD_mem hl)
      simpa [hl] using this

/-! ### Gibbs inequality for the relative-entropy sum -/

lemma term_ge_sub {p q : ℝ} (hp : 0 < p) (hq : 0 < q) :
    p - q ≤ p * Real.log (p / q) := by
  have hpq : 0 < p / q := div_pos hp hq
  have h1 : 1 - (p / q)⁻¹ ≤ Real.log (p / q) :=
    Real.one_sub_inv_le_log_of_pos hpq
  have h2 : p * (1 - (p / q)⁻¹) ≤ p * Real.log (p / q) :=
    mul_le_mul_of_nonneg_left h1 (le_of_lt hp)
  have h3 : p * (1 - (p / q)⁻¹) = p - q := by
    field_simp
  linarith [h2, h3.symm.le]

lemma zip_sum_ge {l : List (ℝ × ℝ)} (h : ∀ pq ∈ l, 0 < pq.1 ∧ 0 < pq.2) :
    (l.map Prod.fst).sum - (l.map Prod.snd).sum
      ≤ (l.map (fun pq => pq.1 * Real.log (pq.1 / pq.2))).sum := by
  induction l with
  | nil => simp
  | cons x rest ih =>
      have hx := h x (List.mem_cons_self _ _)
      have hr := ih (fun pq hpq => h pq (List.mem_cons_of_mem _ hpq))
      have ht := term_ge_sub hx.1 hx.2
      simp only [List.map_cons, List.sum_cons]
      linarith

lemma relEntrSum_nonneg {ps qs : List ℝ} (hlen : ps.length = qs.length)
    (hp : ∀ x ∈ ps, 0 < x) (hq : ∀ x ∈ qs, 0 < x)
    (hps : ps.sum = 1) (hqs : qs.sum = 1) : 0 ≤ relEntrSum ps qs := by
  have hfst : (ps.zip qs).map Prod.fst = ps :=
    List.map_fst_zip ps qs (le_of_eq hlen)
  have hsnd : (ps.zip qs).map Prod.snd = qs :=
    List.map_snd_zip ps qs (ge_of_eq hlen)
  have hmem : ∀ pq ∈ ps.zip qs, 0 < pq.1 ∧ 0 < pq.2 := by
    intro pq hpq
    exact ⟨hp _ (List.of_mem_zip hpq).1, hq _ (List.of_mem_zip hpq).2⟩
  have := zip_sum_ge hmem
  rw [hfst, hsnd, hps, hqs] at this
  simpa [relEntrSum] using this

lemma relEntrSum_self (l : List ℝ) : relEntrSum l l = 0 := by
  unfold relEntrSum
  induction l with
  | nil => simp
  | cons x rest ih =>
      simp only [List.zip_cons_cons, List.map_cons, List.sum_cons, ih,
        add_zero]
      by_cases hx : x = 0
      · simp [hx]
      · simp [div_self hx]

/-! ### `normalize_distribution` facts -/

lemma sumValues_buildProbs_pos {e : ℚ → ℚ} (he : ∀ x, 0 < e x)
    {l : List Item} (hl : l ≠ []) : 0 < sumValues (buildProbs e l) := by
  apply List.sum_pos
  · intro x hx
    obtain ⟨kv, hkv, rfl⟩ := List.mem_map.mp hx
    exact values_buildProbs_pos he l kv hkv
  · simpa using buildProbs_ne_nil e hl

lemma normalize_eq_div {e : ℚ → ℚ} (he : ∀ x, 0 < e x)
    {l : List Item} (hl : l ≠ []) :
    normalize_distribution e l
      = (buildProbs e l).map
          (fun kv => (kv.1, kv.2 / sumValues (buildProbs e l))) := by
  unfold normalize_distribution
  rw [if_pos (sumValues_buildProbs_pos he hl)]

lemma normalize_ne_nil (e : ℚ → ℚ) {l : List Item} (hl : l ≠ []) :
    normalize_distribution e l ≠ [] := by
  unfold normalize_distribution
  by_cases h : 0 < sumValues (buildProbs e l) <;>
    simp [h, buildProbs_ne_nil e hl]

lemma normalize_pos {e : ℚ → ℚ} (he : ∀ x, 0 < e x)
    {l : List Item} (hl : l ≠ []) :
    ∀ kv ∈ normalize_distribution e l, 0 < kv.2 := by
  rw [normalize_eq_div he hl]
  intro kv hkv
  obtain ⟨kv', hkv', rfl⟩ := List.mem_map.mp hkv
  exact div_pos (values_buildProbs_pos he l kv' hkv')
    (sumValues_buildProbs_pos he hl)

lemma normalize_sum_one {e : ℚ → ℚ} (he : ∀ x, 0 < e x)
    {l : List Item} (hl : l ≠ []) :
    sumValues (normalize_distribution e l) = 1 := by
  rw [normalize_eq_div he hl, sumValues_map_div]
  exact div_self (ne_of_gt (sumValues_buildProbs_pos he hl))

/-! ### Alignment invariants -/

lemma align_invariants {p q : List (String × ℚ)} {ε : ℚ} (hε : 0 < ε)
    (hp : ∀ kv ∈ p, 0 < kv.2) (hq : ∀ kv ∈ q, 0 < kv.2)
    (hne : sortedUnion p q ≠ []) :
    (align_distributions p q ε).1.length = (sortedUnion p q).length
    ∧ (align_distributions p q ε).2.length = (sortedUnion p q).length
    ∧ (∀ x ∈ (align_distributions p q ε).1, 0 < x)
    ∧ (∀ x ∈ (align_distributions p q ε).2, 0 < x)
    ∧ (align_distributions p q ε).1.sum = 1
    ∧ (align_distributions p q ε).2.sum = 1 := by
  have hpv : ∀ x ∈ (sortedUnion p q).map (fun t => (lookupD t p).getD ε),
      0 < x := preAlign_pos hε hp _
  have hqv : ∀ x ∈ (sortedUnion p q).map (fun t => (lookupD t q).getD ε),
      0 < x := preAlign_pos hε hq _
  have hpn : (sortedUnion p q).map (fun t => (lookupD t p).getD ε) ≠ [] := by
    simpa using hne
  have hqn : (sortedUnion p q).map (fun t => (lookupD t q).getD ε) ≠ [] := by
    simpa using hne
  refine ⟨by simp [align_distributions], by simp [align_distributions],
    ?_, ?_, ?_, ?_⟩
  · simpa [align_distributions] using renorm_pos hpn hpv
  · simpa [align_distributions] using renorm_pos hqn hqv
  · simpa [align_distributions] using renorm_sum_one hpn hpv
  · simpa [align_distributions] using renorm_sum_one hqn hqv

/-! ### Casting the aligned rational vectors to the reals -/

lemma castList_sum (l : List ℚ) : (castList l).sum = ((l.sum : ℚ) : ℝ) :=
  (map_list_sum (Rat.castHom ℝ) l).symm

lemma castList_pos {l : List ℚ} (h : ∀ x ∈ l, 0 < x) :
    ∀ y ∈ castList l, 0 < y := by
  intro y hy
  obtain ⟨x, hx, rfl⟩ := List.mem_map.mp hy
  exact_mod_cast h x hx

lemma castList_length (l : List ℚ) : (castList l).length = l.length :=
  List.length_map _ _

lemma scipyEntropy_of_sum_one {ps qs : List ℝ} (hps : ps.sum = 1)
    (hqs : qs.sum = 1) : scipyEntropy ps qs = relEntrSum ps qs := by
  simp [scipyEntropy, hps, hqs]

/-! ### The KL value of the full pipeline -/

lemma kl_main {expf : ℚ → ℚ} {ε : ℚ} {p q : List Item}
    (hexp : ∀ x, 0 < expf x) (hε : 0 < ε) (hp : p ≠ []) (hq : q ≠ []) :
    compute_kl_divergence expf ε p q
        = relEntrSum
            (castList (align_distributions (normalize_distribution expf p)
              (normalize_distribution expf q) ε).1)
            (castList (align_distributions (normalize_distribution expf p)
              (normalize_distribution expf q) ε).2)
    ∧ 0 ≤ compute_kl_divergence expf ε p q := by
  have hpd_pos := normalize_pos hexp hp
  have hqd_pos := normalize_pos hexp hq
  have hne : sortedUnion (normalize_distribution expf p)
      (normalize_distribution expf q) ≠ [] :=
    sortedUnion_ne_nil_left _ (normalize_ne_nil expf hp)
  obtain ⟨l1, l2, pos1, pos2, s1, s2⟩ :=
    align_invariants hε hpd_pos hqd_pos hne
  have cs1 : (castList (align_distributions (normalize_distribution expf p)
      (normalize_distribution expf q) ε).1).sum = 1 := by
    rw [castList_sum, s1]
    norm_num
  have cs2 : (castList (align_distributions (normalize_distribution expf p)
      (normalize_distribution expf q) ε).2).sum = 1 := by
    rw [castList_sum, s2]
    norm_num
  have heq : compute_kl_divergence expf ε p q
      = relEntrSum
          (castList (align_distributions (normalize_distribution expf p)
            (normalize_distribution expf q) ε).1)
          (castList (align_distributions (normalize_distribution expf p)
            (normalize_distribution expf q) ε).2) := by
    show scipyEntropy _ _ = _
    exact scipyEntropy_of_sum_one cs1 cs2
  refine ⟨heq, ?_⟩
  rw [heq]
  apply relEntrSum_nonneg _ (castList_pos pos1) (castList_pos pos2) cs1 cs2
  rw [castList_length, castList_length, l1, l2]

lemma kl_self (expf : ℚ → ℚ) (ε : ℚ) (p : List Item) :
    compute_kl_divergence expf ε p p = 0 := by
  show scipyEntropy _ _ = 0
  unfold scipyEntropy
  exact relEntrSum_self _

/-! ## Claims -/

/-- C1 counterexample: contrary to the claim, neither public operation
rejects the empty input.  `normalize` applied to the empty top-k list
returns the empty mapping and alignment of two empty probability mappings
returns two empty vectors — no InvalidInput (or any other) error is
produced at these concrete inputs. -/
theorem C1_counterexample :
    normalizeE (fun _ => 1) [] = Except.ok []
    ∧ alignE [] [] (1 / 10 ^ 10) = Except.ok ([], []) := by
  constructor <;> rfl

/-- C1 (amended): for every exponential model and every epsilon, `normalize`
applied to an empty top-k list returns the empty mapping without raising and
without evaluating the uniform-fallback division (the fallback comprehension
iterates zero times), and alignment of two empty probability mappings
returns a pair of empty vectors without raising and without producing NaN
(the element-wise renormalisation performs no division on an empty
vector). -/
theorem C1_theorem (expf : ℚ → ℚ) (ε : ℚ) :
    normalizeE expf [] = Except.ok []
    ∧ alignE [] [] ε = Except.ok ([], []) := by
  constructor <;> rfl

/-- C2: for every pair of input sequences of unequal length,
`compute_sequence_kl` fails with the length-mismatch error carrying both
lengths, whose message reports both lengths, and produces no result. -/
theorem C2_theorem (expf : ℚ → ℚ) (ε : ℚ) (a b : List (List Item))
    (mode : String) (h : a.length ≠ b.length) :
    compute_sequence_kl expf ε a b mode
        = Except.error (KLError.lengthMismatch a.length b.length)
    ∧ (KLError.lengthMismatch a.length b.length).message
        = "Token sequence lengths do not match: " ++ toString a.length
            ++ " vs " ++ toString b.length := by
  constructor
  · unfold compute_sequence_kl
    rw [if_pos h]
  · rfl

/-- C2 witness: a one-position run against a two-position run is rejected
with the error reporting lengths 1 and 2. -/
theorem C2_witness :
    ([[]] : List (List Item)).length ≠ ([[], []] : List (List Item)).length
    ∧ (compute_sequence_kl (fun _ => 1) (1 / 10 ^ 10) [[]] [[], []] "mean"
        = Except.error (KLError.lengthMismatch 1 2)
      ∧ (KLError.lengthMismatch 1 2).message
        = "Token sequence lengths do not match: " ++ toString (1 : Nat)
            ++ " vs " ++ toString (2 : Nat)) := by
  refine ⟨by decide, ?_⟩
  exact C2_theorem (fun _ => 1) (1 / 10 ^ 10) [[]] [[], []] "mean" (by decide)

/-- C9: for every aggregation mode string outside mean/sum/max, given two
equal-length runs, `compute_sequence_kl` fails with the unknown-aggregate
error rather than silently falling back to a default mode. -/
theorem C9_theorem (expf : ℚ → ℚ) (ε : ℚ) (a b : List (List Item))
    (mode : String) (hlen : a.length = b.length) (hm : mode ≠ "mean")
    (hs : mode ≠ "sum") (hx : mode ≠ "max") :
    compute_sequence_kl expf ε a b mode
        = Except.error (KLError.unknownAggregate mode) := by
  unfold compute_sequence_kl
  rw [if_neg (by simp [hlen])]
  unfold aggregateKL
  rw [if_neg hm, if_neg hs, if_neg hx]

/-- C9 witness: mode "median" on two equal-length runs is rejected as an
unknown aggregate method. -/
theorem C9_witness :
    ([] : List (List Item)).length = ([] : List (List Item)).length
    ∧ "median" ≠ "mean" ∧ "median" ≠ "sum" ∧ "median" ≠ "max"
    ∧ compute_sequence_kl (fun _ => 1) (1 / 10 ^ 10) [] [] "median"
        = Except.error (KLError.unknownAggregate "median") := by
  refine ⟨rfl, by decide, by decide, by decide, ?_⟩
  exact C9_theorem (fun _ => 1) (1 / 10 ^ 10) [] [] "median" rfl
    (by decide) (by decide) (by decide)

/-- C10: `normalize` reads the log-probability from the "logprob" key, falls
back to the "log_prob" key when "logprob" is absent, and silently uses 0 when
neither is present, in which case that token receives unnormalized mass
`exp(0)`, i.e. 1. -/
theorem C10_theorem (expf : ℚ → ℚ) (t : String) (x y : ℚ) (o : Option ℚ) :
    getLogprob ⟨t, some x, o⟩ = x
    ∧ getLogprob ⟨t, none, some y⟩ = y
    ∧ getLogprob ⟨t, none, none⟩ = 0
    ∧ buildProbs expf [⟨t, none, none⟩] = [(t, expf 0)]
    ∧ (expf 0 = 1 → buildProbs expf [⟨t, none, none⟩] = [(t, 1)]) := by
  refine ⟨rfl, rfl, rfl, rfl, ?_⟩
  intro h
  simp [buildProbs, insertD, getLogprob, h]

/-- C10 witness: concrete items exercising all three key cases, with the
exponential sending 0 to 1 so that the keyless item receives mass 1. -/
theorem C10_witness :
    getLogprob ⟨"a", some 5, none⟩ = 5
    ∧ getLogprob ⟨"a", none, some 7⟩ = 7
    ∧ getLogprob ⟨"a", none, none⟩ = 0
    ∧ buildProbs (fun _ => 1) [⟨"a", none, none⟩] = [("a", 1)] := by
  have h := C10_theorem (fun _ => 1) "a" 5 7 none
  exact ⟨h.1, h.2.1, h.2.2.1, h.2.2.2.2 rfl⟩

/-- C3: for every non-empty top-k list whose exponentiated masses sum to a
value that is not strictly positive, `normalize` returns the uniform
distribution over the token set of the list: each entry holds probability
1/count (count positive, so no error and no NaN), and the keys are exactly
the distinct tokens of the input list. -/
theorem C3_theorem (expf : ℚ → ℚ) (topk : List Item) (h1 : topk ≠ [])
    (h2 : ¬ 0 < sumValues (buildProbs expf topk)) :
    0 < (normalize_distribution expf topk).length
    ∧ (∀ kv ∈ normalize_distribution expf topk,
        kv.2 = 1 / ((normalize_distribution expf topk).length : ℚ))
    ∧ (∀ t, t ∈ (normalize_distribution expf topk).map Prod.fst
        ↔ t ∈ topk.map Item.token) := by
  have hnorm : normalize_distribution expf topk
      = (buildProbs expf topk).map
          (fun kv => (kv.1, 1 / ((buildProbs expf topk).length : ℚ))) := by
    unfold normalize_distribution
    rw [if_neg h2]
  have hlen : (normalize_distribution expf topk).length
      = (buildProbs expf topk).length := by
    rw [hnorm, List.length_map]
  refine ⟨?_, ?_, ?_⟩
  · rw [hlen]
    exact List.length_pos.mpr (buildProbs_ne_nil expf h1)
  · intro kv hkv
    rw [hnorm] at hkv
    obtain ⟨kv', h', rfl⟩ := List.mem_map.mp hkv
    rw [hlen]
  · intro t
    rw [hnorm]
    have hkeys : ((buildProbs expf topk).map
          (fun kv => (kv.1, 1 / ((buildProbs expf topk).length : ℚ)))).map
            Prod.fst
        = (buildProbs expf topk).map Prod.fst := by
      rw [List.map_map]
      rfl
    rw [hkeys]
    exact mem_keys_buildProbs expf t topk

/-- C3 witness: two tokens whose masses both underflow to 0 each receive the
uniform probability 1/2. -/
theorem C3_witness :
    ([⟨"a", some (-1000), none⟩, ⟨"b", some (-1000), none⟩] : List Item) ≠ []
    ∧ ¬ 0 < sumValues (buildProbs (fun _ => 0)
        [⟨"a", some (-1000), none⟩, ⟨"b", some (-1000), none⟩])
    ∧ (0 < (normalize_distribution (fun _ => 0)
          [⟨"a", some (-1000), none⟩, ⟨"b", some (-1000), none⟩]).length
      ∧ (∀ kv ∈ normalize_distribution (fun _ => 0)
            [⟨"a", some (-1000), none⟩, ⟨"b", some (-1000), none⟩],
          kv.2 = 1 / ((normalize_distribution (fun _ => 0)
            [⟨"a", some (-1000), none⟩, ⟨"b", some (-1000), none⟩]).length
              : ℚ))
      ∧ (∀ t, t ∈ (normalize_distribution (fun _ => 0)
            [⟨"a", some (-1000), none⟩,
              ⟨"b", some (-1000), none⟩]).map Prod.fst
          ↔ t ∈ ([⟨"a", some (-1000), none⟩,
              ⟨"b", some (-1000), none⟩] : List Item).map Item.token)) := by
  refine ⟨by decide, by simp [sumValues, buildProbs, insertD], ?_⟩
  exact C3_theorem (fun _ => 0)
    [⟨"a", some (-1000), none⟩, ⟨"b", some (-1000), none⟩]
    (by decide) (by simp [sumValues, buildProbs, insertD])

/-- C4: for every top-k list whose exponentiated masses have a strictly
positive sum, `normalize` maps each distinct token to `exp(logprob)/total`
where the log-probability is the one of that token's last occurrence
(mapping-overwrite semantics), the keys are exactly the distinct tokens, and
the returned values sum to 1. -/
theorem C4_theorem (expf : ℚ → ℚ) (topk : List Item)
    (h : 0 < sumValues (buildProbs expf topk)) :
    (∀ t it, (topk.filter (fun i => i.token = t)).getLast? = some it →
        lookupD t (normalize_distribution expf topk)
          = some (expf (getLogprob it) / sumValues (buildProbs expf topk)))
    ∧ (∀ t, t ∈ (normalize_distribution expf topk).map Prod.fst
        ↔ t ∈ topk.map Item.token)
    ∧ sumValues (normalize_distribution expf topk) = 1 := by
  have hnorm : normalize_distribution expf topk
      = (buildProbs expf topk).map
          (fun kv => (kv.1, kv.2 / sumValues (buildProbs expf topk))) := by
    unfold normalize_distribution
    rw [if_pos h]
  refine ⟨?_, ?_, ?_⟩
  · intro t it hlast
    rw [hnorm, lookupD_map_div, lookupD_buildProbs, hlast]
    rfl
  · intro t
    rw [hnorm]
    have hkeys : ((buildProbs expf topk).map
          (fun kv => (kv.1, kv.2 / sumValues (buildProbs expf topk)))).map
            Prod.fst
        = (buildProbs expf topk).map Prod.fst := by
      rw [List.map_map]
      rfl
    rw [hkeys]
    exact mem_keys_buildProbs expf t topk
  · rw [hnorm, sumValues_map_div]
    exact div_self (ne_of_gt h)

/-- C4 witness: with masses equal to the raw log-probability values, a list
with a duplicated token "a" (last occurrence carrying 3) normalises to
a ↦ 3/5 and b ↦ 2/5, which sum to 1. -/
theorem C4_witness :
    0 < sumValues (buildProbs (fun x => x)
      [⟨"a", some 1, none⟩, ⟨"b", some 2, none⟩, ⟨"a", some 3, none⟩])
    ∧ lookupD "a" (normalize_distribution (fun x => x)
        [⟨"a", some 1, none⟩, ⟨"b", some 2, none⟩, ⟨"a", some 3, none⟩])
      = some (3 / 5)
    ∧ sumValues (normalize_distribution (fun x => x)
        [⟨"a", some 1, none⟩, ⟨"b", some 2, none⟩, ⟨"a", some 3, none⟩])
      = 1 := by
  have hpos : 0 < sumValues (buildProbs (fun x => x)
      [⟨"a", some 1, none⟩, ⟨"b", some 2, none⟩, ⟨"a", some 3, none⟩]) := by
    simp [sumValues, buildProbs, insertD, getLogprob]
    norm_num
  have h := C4_theorem (fun x => x)
    [⟨"a", some 1, none⟩, ⟨"b", some 2, none⟩, ⟨"a", some 3, none⟩] hpos
  refine ⟨hpos, ?_, h.2.2⟩
  have h1 := h.1 "a" ⟨"a", some 3, none⟩ (by decide)
  rw [h1]
  simp [getLogprob, sumValues, buildProbs, insertD]
  norm_num

/-- C5: for every two probability mappings (strictly positive values) whose
key union is non-empty and every positive epsilon, the aligner works over
the lexicographically sorted duplicate-free union of the token identifiers
(membership in the union is membership in either mapping); both output
vectors have length equal to the size of that union, every component is
strictly positive, and each vector sums to 1. -/
theorem C5_theorem (p q : List (String × ℚ)) (ε : ℚ) (hε : 0 < ε)
    (hp : ∀ kv ∈ p, 0 < kv.2) (hq : ∀ kv ∈ q, 0 < kv.2)
    (hne : p ≠ [] ∨ q ≠ []) :
    List.Sorted (· ≤ ·) (sortedUnion p q)
    ∧ (sortedUnion p q).Nodup
    ∧ (∀ t, t ∈ sortedUnion p q
        ↔ t ∈ p.map Prod.fst ∨ t ∈ q.map Prod.fst)
    ∧ (align_distributions p q ε).1.length = (sortedUnion p q).length
    ∧ (align_distributions p q ε).2.length = (sortedUnion p q).length
    ∧ (∀ x ∈ (align_distributions p q ε).1, 0 < x)
    ∧ (∀ x ∈ (align_distributions p q ε).2, 0 < x)
    ∧ (align_distributions p q ε).1.sum = 1
    ∧ (align_distributions p q ε).2.sum = 1 := by
  have hne2 : sortedUnion p q ≠ [] := by
    rcases hne with h | h
    · exact sortedUnion_ne_nil_left q h
    · exact sortedUnion_ne_nil_right p h
  obtain ⟨a1, a2, a3, a4, a5, a6⟩ := align_invariants hε hp hq hne2
  exact ⟨sortedUnion_sorted p q, sortedUnion_nodup p q,
    fun t => mem_sortedUnion t p q, a1, a2, a3, a4, a5, a6⟩

/-- C5 witness: aligning the mappings a ↦ 1 and b ↦ 1/2 with epsilon
10⁻¹⁰ yields two positive vectors of length 2 each summing to 1. -/
theorem C5_witness :
    0 < ((1 : ℚ) / 10 ^ 10)
    ∧ (∀ kv ∈ ([("a", (1 : ℚ))] : List (String × ℚ)), 0 < kv.2)
    ∧ (∀ kv ∈ ([("b", (1 : ℚ) / 2)] : List (String × ℚ)), 0 < kv.2)
    ∧ (([("a", (1 : ℚ))] : List (String × ℚ)) ≠ []
        ∨ ([("b", (1 : ℚ) / 2)] : List (String × ℚ)) ≠ [])
    ∧ ((align_distributions [("a", 1)] [("b", 1 / 2)] (1 / 10 ^ 10)).1.sum
          = 1
      ∧ (align_distributions [("a", 1)] [("b", 1 / 2)] (1 / 10 ^ 10)).2.sum
          = 1) := by
  have hε : (0 : ℚ) < 1 / 10 ^ 10 := by norm_num
  have hp : ∀ kv ∈ ([("a", (1 : ℚ))] : List (String × ℚ)), 0 < kv.2 := by
    intro kv hkv
    simp at hkv
    subst hkv
    norm_num
  have hq : ∀ kv ∈ ([("b", (1 : ℚ) / 2)] : List (String × ℚ)), 0 < kv.2 := by
    intro kv hkv
    simp at hkv
    subst hkv
    norm_num
  have h := C5_theorem [("a", 1)] [("b", 1 / 2)] (1 / 10 ^ 10)
    hε hp hq (Or.inl (by simp))
  exact ⟨hε, hp, hq, Or.inl (by simp),
    h.2.2.2.2.2.2.2.1, h.2.2.2.2.2.2.2.2⟩

/-- C6: for every pair of non-degenerate top-k inputs (non-empty lists,
strictly positive exponential, positive epsilon), `compute_kl_divergence`
equals the relative-entropy sum `Σ pᵢ · ln(pᵢ / qᵢ)` (natural log) over the
aligned vectors produced by the normaliser and aligner; the result is
non-negative, hence at least -10⁻⁹; and the self-divergence of any such
distribution is within 10⁻⁶ of 0 (it is exactly 0). -/
theorem C6_theorem (expf : ℚ → ℚ) (ε : ℚ) (p q : List Item)
    (hexp : ∀ x, 0 < expf x) (hε : 0 < ε) (hp : p ≠ []) (hq : q ≠ []) :
    compute_kl_divergence expf ε p q
        = relEntrSum
            (castList (align_distributions (normalize_distribution expf p)
              (normalize_distribution expf q) ε).1)
            (castList (align_distributions (normalize_distribution expf p)
              (normalize_distribution expf q) ε).2)
    ∧ -(1 / 10 ^ 9 : ℝ) ≤ compute_kl_divergence expf ε p q
    ∧ |compute_kl_divergence expf ε p p| ≤ 1 / 10 ^ 6 := by
  obtain ⟨heq, hnn⟩ := kl_main hexp hε hp hq
  refine ⟨heq, le_trans (by norm_num) hnn, ?_⟩
  rw [kl_self]
  norm_num

/-- C6 witness: two concrete singleton top-k lists with a positive
exponential model. -/
theorem C6_witness :
    (∀ x : ℚ, 0 < (fun _ : ℚ => (1 : ℚ)) x)
    ∧ (0 : ℚ) < 1 / 10 ^ 10
    ∧ ([⟨"the", some (-1 / 10), none⟩] : List Item) ≠ []
    ∧ ([⟨"a", some (-2), none⟩] : List Item) ≠ []
    ∧ (compute_kl_divergence (fun _ => 1) (1 / 10 ^ 10)
          [⟨"the", some (-1 / 10), none⟩] [⟨"a", some (-2), none⟩]
        = relEntrSum
            (castList (align_distributions
              (normalize_distribution (fun _ => 1)
                [⟨"the", some (-1 / 10), none⟩])
              (normalize_distribution (fun _ => 1) [⟨"a", some (-2), none⟩])
              (1 / 10 ^ 10)).1)
            (castList (align_distributions
              (normalize_distribution (fun _ => 1)
                [⟨"the", some (-1 / 10), none⟩])
              (normalize_distribution (fun _ => 1) [⟨"a", some (-2), none⟩])
              (1 / 10 ^ 10)).2)
      ∧ -(1 / 10 ^ 9 : ℝ) ≤ compute_kl_divergence (fun _ => 1) (1 / 10 ^ 10)
          [⟨"the", some (-1 / 10), none⟩] [⟨"a", some (-2), none⟩]
      ∧ |compute_kl_divergence (fun _ => 1) (1 / 10 ^ 10)
          [⟨"the", some (-1 / 10), none⟩]
          [⟨"the", some (-1 / 10), none⟩]| ≤ 1 / 10 ^ 6) := by
  refine ⟨fun x => one_pos, by norm_num, by simp, by simp, ?_⟩
  exact C6_theorem (fun _ => 1) (1 / 10 ^ 10) [⟨"the", some (-1 / 10), none⟩]
    [⟨"a", some (-2), none⟩] (fun x => one_pos) (by norm_num) (by simp)
    (by simp)

/-- C8: for every pair of equal-length non-empty sequences and any mode,
`compute_sequence_kl` aggregates the ordered list of per-position KL values
(position i pairing `run_a[i]` as P with `run_b[i]` as Q); the list has one
value per position; and the reduction yields the arithmetic mean for "mean",
the total for "sum" and the maximum for "max" — on the per-position values
[0, 1/2, 1] these are 1/2, 3/2 and 1 respectively. -/
theorem C8_theorem (expf : ℚ → ℚ) (ε : ℚ) (a b : List (List Item))
    (mode : String) (hlen : a.length = b.length) (hne : a ≠ []) :
    compute_sequence_kl expf ε a b mode
        = aggregateKL mode
            ((a.zip b).map (fun pq => compute_kl_divergence expf ε pq.1 pq.2))
    ∧ ((a.zip b).map
        (fun pq => compute_kl_divergence expf ε pq.1 pq.2)).length = a.length
    ∧ (∀ (i : ℕ) pa pb, a[i]? = some pa → b[i]? = some pb →
        ((a.zip b).map
          (fun pq => compute_kl_divergence expf ε pq.1 pq.2))[i]?
            = some (compute_kl_divergence expf ε pa pb))
    ∧ aggregateKL "mean" [0, 1 / 2, 1] = .ok (1 / 2)
    ∧ aggregateKL "sum" [0, 1 / 2, 1] = .ok (3 / 2)
    ∧ aggregateKL "max" [0, 1 / 2, 1] = .ok 1 := by
  refine ⟨?_, ?_, ?_, ?_, ?_, ?_⟩
  · unfold compute_sequence_kl
    rw [if_neg (by simp [hlen])]
  · simp [hlen]
  · intro i pa pb h1 h2
    rw [List.getElem?_map]
    have hz : (a.zip b)[i]? = some (pa, pb) :=
      List.getElem?_zip_eq_some.mpr ⟨h1, h2⟩
    rw [hz]
    rfl
  · unfold aggregateKL
    rw [if_pos rfl]
    norm_num
  · unfold aggregateKL
    rw [if_neg (by decide), if_pos rfl]
    norm_num
  · unfold aggregateKL
    rw [if_neg (by decide), if_neg (by decide), if_pos rfl]
    simp only [List.foldl]
    norm_num [max_def]

/-- C8 witness: two identical one-position runs. -/
theorem C8_witness :
    ([[⟨"a", some 0, none⟩]] : List (List Item)).length
        = ([[⟨"a", some 0, none⟩]] : List (List Item)).length
    ∧ ([[⟨"a", some 0, none⟩]] : List (List Item)) ≠ []
    ∧ (compute_sequence_kl (fun _ => 1) (1 / 10 ^ 10) [[⟨"a", some 0, none⟩]]
          [[⟨"a", some 0, none⟩]] "mean"
        = aggregateKL "mean"
            ((([[⟨"a", some 0, none⟩]] : List (List Item)).zip
              [[⟨"a", some 0, none⟩]]).map
                (fun pq => compute_kl_divergence (fun _ => 1) (1 / 10 ^ 10)
                  pq.1 pq.2))
      ∧ aggregateKL "mean" [0, 1 / 2, 1] = .ok (1 / 2)
      ∧ aggregateKL "sum" [0, 1 / 2, 1] = .ok (3 / 2)
      ∧ aggregateKL "max" [0, 1 / 2, 1] = .ok 1) := by
  refine ⟨rfl, by simp, ?_⟩
  have h := C8_theorem (fun _ => 1) (1 / 10 ^ 10) [[⟨"a", some 0, none⟩]]
    [[⟨"a", some 0, none⟩]] "mean" rfl (by simp)
  exact ⟨h.1, h.2.2.2.1, h.2.2.2.2.1, h.2.2.2.2.2⟩
